import Mathlib

/-
  Shallow embedding of the minmips assembler (src/main.rs).

  Machine integers are modelled as Nat (u32, usize) and Int (i32); wrapping
  is made explicit with `% 2^32` / `% 2^64` where the Rust operations wrap.
  Every Rust panic (`panic!`, `expect`, `unwrap`, out-of-bounds indexing) is
  modelled as `Option.none`.
-/

namespace MinMips

/- `enum Mnemonic` (main.rs lines 8-20). -/
inductive Mnemonic
  | AND
  | OR
  | J
  | SLT
  | ADD
  | SUB
  | ADDI
  | BEQ
  | SW
  | LW
  deriving DecidableEq, Repr

/- `enum Operand` (main.rs lines 22-27): register index (u32),
   immediate (i32), or unresolved label. -/
inductive Operand
  | Reg (n : Nat)
  | Im (v : Int)
  | Label (s : String)
  deriving DecidableEq, Repr

/- `struct Instruction` (main.rs lines 29-34). -/
structure Instruction where
  label : Option String
  mnemonic : Mnemonic
  operands : List Operand
  deriving DecidableEq, Repr

/- `enum InstructionType` (main.rs lines 36-40). -/
inductive InstructionType
  | R
  | I
  | J
  deriving DecidableEq, Repr

/- `char::to_digit(10)` as used at main.rs line 105: the digit value of an
   ASCII decimal digit, `none` otherwise (the `expect` panic). -/
def charToDigit (c : Char) : Option Nat :=
  if 48 ≤ c.toNat ∧ c.toNat ≤ 57 then some (c.toNat - 48) else none

/- The scheme dispatch of `fn str2regidx` (main.rs lines 103-115): `c1` is
   the character at index 1 of the token, `c2` the character at index 2.
   A non-digit `c2` (the `expect` panic) and an unknown scheme letter (the
   `panic!`) are `none`. -/
def regSchemeIdx (c1 c2 : Char) : Option Nat :=
  match charToDigit c2 with
  | some n =>
    if c1 = 'v' then some (n + 2)
    else if c1 = 'a' then some (n + 4)
    else if c1 = 't' then some (n + 8)
    else if c1 = 's' then some (if n < 8 then n + 16 else n + 24)
    else if c1 = 'k' then some (n + 26)
    else none
  | none => none

/- `fn str2regidx` (main.rs lines 94-118).  The Rust function panics on an
   unknown alias whose second or third character is missing, on a non-digit
   third character, and on an unknown single-letter scheme; all of these are
   modelled as `none`.  Characters past index 2 are never inspected. -/
def str2regidx (s : String) : Option Nat :=
  if s = "$0" then some 0
  else if s = "$at" then some 1
  else if s = "$gp" then some 28
  else if s = "$sp" then some 29
  else if s = "$fp" then some 30
  else if s = "$ra" then some 31
  else
    match s.data[1]?, s.data[2]? with
    | some c1, some c2 => regSchemeIdx c1 c2
    | _, _ => none

/- `fn mnemonic2funct` (main.rs lines 120-129). -/
def mnemonic2funct : Mnemonic → Nat
  | Mnemonic.ADD => 32
  | Mnemonic.SUB => 34
  | Mnemonic.AND => 36
  | Mnemonic.OR => 37
  | Mnemonic.SLT => 42
  | _ => 0

/- `fn mnemonictype` (main.rs lines 131-139). -/
def mnemonictype : Mnemonic → InstructionType
  | Mnemonic.ADD | Mnemonic.SUB | Mnemonic.AND | Mnemonic.OR | Mnemonic.SLT =>
      InstructionType.R
  | Mnemonic.ADDI | Mnemonic.BEQ | Mnemonic.LW | Mnemonic.SW => InstructionType.I
  | Mnemonic.J => InstructionType.J

/- `fn mnemonic2op` (main.rs lines 141-150). -/
def mnemonic2op : Mnemonic → Nat
  | Mnemonic.ADD | Mnemonic.SUB | Mnemonic.AND | Mnemonic.OR | Mnemonic.SLT => 0
  | Mnemonic.ADDI => 8
  | Mnemonic.LW => 35
  | Mnemonic.SW => 43
  | Mnemonic.BEQ => 4
  | Mnemonic.J => 2

/- Rust `u32` shift-left: low 32 bits of `a << k`. -/
def shl32 (a k : Nat) : Nat := (a <<< k) % 2 ^ 32

/- Rust `im as u32` for an `i32` value: two's-complement reinterpretation. -/
def i32AsU32 (v : Int) : Nat := (v % (2 ^ 32 : Int)).toNat

/- Rust `(adr - 1 - i) as u32` at main.rs line 195, where `adr` and `i` are
   `usize`: wrapping subtraction modulo 2^64, then truncation to u32. -/
def usizeWrapSub (adr i : Nat) : Nat :=
  ((((adr : Int) - 1 - (i : Int)) % (2 ^ 64 : Int)).toNat) % 2 ^ 32

/- The label table (main.rs lines 153-158): a `HashMap` filled in program
   order, so a later definition of the same name overwrites an earlier one.
   Modelled as an association list with the newest binding in front. -/
def labelmapAux : List Instruction → Nat → List (String × Nat) → List (String × Nat)
  | [], _, acc => acc
  | instr :: rest, i, acc =>
      labelmapAux rest (i + 1)
        (match instr.label with
         | some l => (l, i) :: acc
         | none => acc)

def labelmap (instrs : List Instruction) : List (String × Nat) :=
  labelmapAux instrs 0 []

/- `HashMap::get` on the modelled label table. -/
def lookupLabel : List (String × Nat) → String → Option Nat
  | [], _ => none
  | (k, v) :: rest, l => if k = l then some v else lookupLabel rest l

/- The per-instruction body of `fn instrs2bin` (main.rs lines 161-226):
   encodes the instruction at index `i` given the label table.  Every
   `panic!("something wrong!")` is `none`.  The I-format match scrutinises
   `(&operands[1], &operands[0], &operands[2])`, which is expressed here by
   matching the operand list in source order `[operands[0], operands[1],
   operands[2]]` against the correspondingly permuted patterns. -/
def encodeInstr (lm : List (String × Nat)) (i : Nat) (instr : Instruction) : Option Nat :=
  match mnemonictype instr.mnemonic with
  | InstructionType.R =>
    let op := mnemonic2op instr.mnemonic
    match instr.operands with
    | [Operand.Reg rd, Operand.Reg rs, Operand.Reg rt] =>
        let funct := mnemonic2funct instr.mnemonic
        some (shl32 op 26 ||| (shl32 rs 21 ||| shl32 rt 16 ||| shl32 rd 11) ||| funct)
    | _ => none
  | InstructionType.I =>
    let op := mnemonic2op instr.mnemonic
    match instr.operands with
    | [Operand.Reg rt, Operand.Reg rs, Operand.Im im] =>
        some (shl32 op 26 |||
          (shl32 rs 21 ||| shl32 rt 16 ||| (i32AsU32 im &&& ((1 <<< 16) - 1))))
    | [Operand.Reg rt, Operand.Im im, Operand.Reg rs] =>
        some (shl32 op 26 |||
          (shl32 rs 21 ||| shl32 rt 16 ||| (i32AsU32 im &&& ((1 <<< 16) - 1))))
    | [Operand.Reg rs, Operand.Reg rt, Operand.Label l] =>
        match lookupLabel lm l with
        | some adr =>
            some (shl32 op 26 |||
              (shl32 rs 21 ||| shl32 rt 16 ||| (usizeWrapSub adr i &&& ((1 <<< 16) - 1))))
        | none => none
    | _ => none
  | InstructionType.J =>
    let op := mnemonic2op instr.mnemonic
    match instr.operands with
    | [Operand.Label l] =>
        match lookupLabel lm l with
        | some pos => some (shl32 op 26 ||| pos % 2 ^ 32)
        | none => none
    | _ => none

/- The encoding loop of `fn instrs2bin` (main.rs lines 160-229), threading
   the running index `i`. -/
def encodeAll (lm : List (String × Nat)) : Nat → List Instruction → Option (List Nat)
  | _, [] => some []
  | i, instr :: rest =>
    match encodeInstr lm i instr, encodeAll lm (i + 1) rest with
    | some b, some bs => some (b :: bs)
    | _, _ => none

/- `fn instrs2bin` (main.rs lines 152-230). -/
def instrs2bin (instrs : List Instruction) : Option (List Nat) :=
  encodeAll (labelmap instrs) 0 instrs

/- One lowercase hex digit. -/
def hexDigit (n : Nat) : Char :=
  if n < 10 then Char.ofNat (48 + n) else Char.ofNat (87 + n)

/- Rust `format!("{:08x}", w)` for a u32 value: exactly eight lowercase hex
   digits. -/
def hex8 (w : Nat) : String :=
  String.mk ((List.range 8).map (fun k => hexDigit (w / 2 ^ (4 * (7 - k)) % 16)))

/- The output loops of `fn main` (main.rs lines 263-268): the encoded words
   in order, padded with zero words to 64 lines.  For more than 64
   instructions the Rust count `64 - instrs_bin.len()` underflows (a panic
   in debug builds, an astronomically long loop in release builds); that
   case is modelled as `none`. -/
def outputLines (bins : List Nat) : Option (List String) :=
  if bins.length ≤ 64 then
    some (bins.map hex8 ++ List.replicate (64 - bins.length) (hex8 0))
  else none

/- ASCII whitespace, the fragment of Rust `char::is_whitespace` relevant to
   assembly source lines. -/
def isSpaceChar (c : Char) : Bool :=
  c = ' ' || c = '\t' || c = '\n' || c = '\r'

/- Rust `str::trim`, on the character list of the string. -/
def trimChars (cs : List Char) : List Char :=
  ((cs.dropWhile fun c => isSpaceChar c).reverse.dropWhile fun c => isSpaceChar c).reverse

/- Rust `str::split(c)` for a one-character separator: the pieces between
   occurrences of `c`, keeping empty pieces. -/
def splitOnChar (c : Char) : List Char → List (List Char)
  | [] => [[]]
  | x :: xs =>
    if x = c then [] :: splitOnChar c xs
    else
      match splitOnChar c xs with
      | [] => [[x]]
      | g :: gs => (x :: g) :: gs

/- The punctuation normalization of `fn str2instr` (main.rs lines 50-53):
   `,` and `(` become spaces and `)` is dropped.  The three sequential
   single-character `String::replace` calls are equivalent to this
   character-by-character pass. -/
def normalizeChars : List Char → List Char
  | [] => []
  | c :: cs =>
    if c = ',' ∨ c = '(' then ' ' :: normalizeChars cs
    else if c = ')' then normalizeChars cs
    else c :: normalizeChars cs

def digitsValAux : List Char → Nat → Option Nat
  | [], acc => some acc
  | c :: cs, acc =>
    match charToDigit c with
    | some d => digitsValAux cs (acc * 10 + d)
    | none => none

/- Rust `s.parse::<i32>()` (main.rs line 81): optional sign, decimal
   digits, with the i32 range check. -/
def parseI32 (s : String) : Option Int :=
  match s.data with
  | [] => none
  | '-' :: cs =>
    match cs, digitsValAux cs 0 with
    | _ :: _, some n => if (n : Int) ≤ 2 ^ 31 then some (-(n : Int)) else none
    | _, _ => none
  | '+' :: cs =>
    match cs, digitsValAux cs 0 with
    | _ :: _, some n => if (n : Int) < 2 ^ 31 then some (n : Int) else none
    | _, _ => none
  | cs =>
    match digitsValAux cs 0 with
    | some n => if (n : Int) < 2 ^ 31 then some (n : Int) else none
    | none => none

/- The operand classifier closure inside `fn str2instr`
   (main.rs lines 75-85): dispatch on the first character of the token. -/
def classifyOperand (s : String) : Option Operand :=
  match s.data with
  | [] => none
  | c :: _ =>
    if c = '$' then (str2regidx s).map Operand.Reg
    else if (48 ≤ c.toNat ∧ c.toNat ≤ 57) ∨ c = '-' then (parseI32 s).map Operand.Im
    else some (Operand.Label s)

/- The ten-way mnemonic match in `fn str2instr` (main.rs lines 57-71). -/
def str2mnemonic (s : String) : Option Mnemonic :=
  if s = "and" then some Mnemonic.AND
  else if s = "or" then some Mnemonic.OR
  else if s = "j" then some Mnemonic.J
  else if s = "slt" then some Mnemonic.SLT
  else if s = "add" then some Mnemonic.ADD
  else if s = "sub" then some Mnemonic.SUB
  else if s = "addi" then some Mnemonic.ADDI
  else if s = "beq" then some Mnemonic.BEQ
  else if s = "sw" then some Mnemonic.SW
  else if s = "lw" then some Mnemonic.LW
  else none

/- `fn str2instr` (main.rs lines 42-92): optional `label:`, punctuation
   normalization (`,` and `(` become spaces, `)` is dropped), whitespace
   split discarding empty tokens, mnemonic lookup, operand classification.
   An empty token list (whose `split_off(1)` would panic) is `none`. -/
def parseOperation (label : Option String) (operation : List Char) : Option Instruction :=
  let norm := normalizeChars operation
  let toks := (splitOnChar ' ' norm).filter (fun t => t ≠ [])
  match toks with
  | [] => none
  | mstr :: ops =>
    match str2mnemonic (String.mk mstr) with
    | none => none
    | some m =>
      match ops.mapM (fun t => classifyOperand (String.mk t)) with
      | none => none
      | some operands => some ⟨label, m, operands⟩

def str2instr (s : String) : Option Instruction :=
  match splitOnChar ':' (trimChars s.data) with
  | [] => none
  | [op] => parseOperation none op
  | lbl :: op :: _ => parseOperation (some (String.mk (trimChars lbl))) op

/- The six direct aliases of `fn str2regidx` (main.rs lines 96-101). -/
def isNamedAlias (s : String) : Bool :=
  s = "$0" || s = "$at" || s = "$gp" || s = "$sp" || s = "$fp" || s = "$ra"

/- The operand-kind shapes accepted by the I-format arm of `instrs2bin`
   (main.rs lines 186-203), in source operand order. -/
def acceptedIShape : List Operand → Bool
  | [Operand.Reg _, Operand.Reg _, Operand.Im _] => true
  | [Operand.Reg _, Operand.Im _, Operand.Reg _] => true
  | [Operand.Reg _, Operand.Reg _, Operand.Label _] => true
  | _ => false

/- Modelled from the spec: the register-name table documented in §4.1 of
   the specification (named aliases plus the documented prefix+digit
   ranges), used to compare the classifier against its documentation. -/
def specRegisterTable : List (String × Nat) :=
  [("$0", 0), ("$at", 1), ("$gp", 28), ("$sp", 29), ("$fp", 30), ("$ra", 31),
   ("$v0", 2), ("$v1", 3),
   ("$a0", 4), ("$a1", 5), ("$a2", 6), ("$a3", 7),
   ("$t0", 8), ("$t1", 9), ("$t2", 10), ("$t3", 11),
   ("$t4", 12), ("$t5", 13), ("$t6", 14), ("$t7", 15),
   ("$s0", 16), ("$s1", 17), ("$s2", 18), ("$s3", 19),
   ("$s4", 20), ("$s5", 21), ("$s6", 22), ("$s7", 23),
   ("$k0", 26), ("$k1", 27)]

/-
  Shared arithmetic lemmas about the bit-level operations used by the
  encoder.
-/

lemma and_mask_eq_mod (n k : Nat) : n &&& (2 ^ k - 1) = n % 2 ^ k := by
  apply Nat.eq_of_testBit_eq
  intro i
  rw [Nat.testBit_and, Nat.testBit_two_pow_sub_one, Nat.testBit_mod_two_pow]
  exact Bool.and_comm _ _

lemma mod_two_pow_or (a b k : Nat) :
    (a ||| b) % 2 ^ k = (a % 2 ^ k) ||| (b % 2 ^ k) := by
  apply Nat.eq_of_testBit_eq
  intro i
  rw [Nat.testBit_mod_two_pow, Nat.testBit_or, Nat.testBit_or,
    Nat.testBit_mod_two_pow, Nat.testBit_mod_two_pow]
  cases h : decide (i < k) <;> simp

lemma lor_eq_add_of (x y k : Nat) (hx : 2 ^ k ∣ x) (hy : y < 2 ^ k) :
    x ||| y = x + y := by
  have h1 : (x ||| y) % 2 ^ k = y := by
    rw [mod_two_pow_or, Nat.dvd_iff_mod_eq_zero.mp hx,
      Nat.mod_eq_of_lt hy, Nat.zero_or]
  have h2 : (x ||| y) / 2 ^ k = x / 2 ^ k := by
    rw [← Nat.shiftRight_eq_div_pow, ← Nat.shiftRight_eq_div_pow]
    apply Nat.eq_of_testBit_eq
    intro i
    rw [Nat.testBit_shiftRight, Nat.testBit_shiftRight, Nat.testBit_or]
    have hyb : y.testBit (k + i) = false := by
      apply Nat.testBit_lt_two_pow
      exact lt_of_lt_of_le hy (Nat.pow_le_pow_right (by omega) (by omega))
    rw [hyb, Bool.or_false]
  calc x ||| y = 2 ^ k * ((x ||| y) / 2 ^ k) + (x ||| y) % 2 ^ k :=
        (Nat.div_add_mod _ _).symm
    _ = 2 ^ k * (x / 2 ^ k) + y := by rw [h1, h2]
    _ = x + y := by rw [Nat.mul_div_cancel' hx]

lemma shl32_eq_mul (a k : Nat) (h : a * 2 ^ k < 2 ^ 32) : shl32 a k = a * 2 ^ k := by
  rw [shl32, Nat.shiftLeft_eq, Nat.mod_eq_of_lt h]

lemma dvd_shl32 (a k j : Nat) (hjk : j ≤ k) (hj : j ≤ 32) : 2 ^ j ∣ shl32 a k := by
  rw [shl32, Nat.shiftLeft_eq]
  rw [Nat.dvd_mod_iff (pow_dvd_pow 2 hj)]
  exact Dvd.dvd.mul_left (pow_dvd_pow 2 hjk) a

lemma mod_shl32_eq_zero (a k j : Nat) (hjk : j ≤ k) (hj : j ≤ 32) :
    shl32 a k % 2 ^ j = 0 :=
  Nat.dvd_iff_mod_eq_zero.mp (dvd_shl32 a k j hjk hj)

/-
  Bridge lemmas between the whole-program encoder and its per-instruction
  body.
-/

lemma encodeAll_get :
    ∀ (instrs : List Instruction) (lm : List (String × Nat)) (j : Nat)
      (bins : List Nat), encodeAll lm j instrs = some bins →
      ∀ (i : Nat) (instr : Instruction), instrs[i]? = some instr →
        ∃ b, bins[i]? = some b ∧ encodeInstr lm (j + i) instr = some b := by
  intro instrs
  induction instrs with
  | nil =>
    intro lm j bins h i instr hi
    simp at hi
  | cons a rest ih =>
    intro lm j bins h i instr hi
    unfold encodeAll at h
    cases ha : encodeInstr lm j a with
    | none => rw [ha] at h; simp at h
    | some b0 =>
      cases hrest : encodeAll lm (j + 1) rest with
      | none => rw [ha, hrest] at h; simp at h
      | some bs =>
        rw [ha, hrest] at h
        simp only [Option.some.injEq] at h
        subst h
        cases i with
        | zero =>
          simp only [List.getElem?_cons_zero, Option.some.injEq] at hi
          subst hi
          exact ⟨b0, by simp, by simpa using ha⟩
        | succ k =>
          simp only [List.getElem?_cons_succ] at hi
          obtain ⟨b, hb1, hb2⟩ := ih lm (j + 1) bs hrest k instr hi
          refine ⟨b, by simpa using hb1, ?_⟩
          rw [show j + (k + 1) = j + 1 + k from by omega]
          exact hb2

lemma instrs2bin_get (instrs : List Instruction) (bins : List Nat) (i : Nat)
    (instr : Instruction) (h : instrs2bin instrs = some bins)
    (hi : instrs[i]? = some instr) :
    ∃ b, bins[i]? = some b ∧ encodeInstr (labelmap instrs) i instr = some b := by
  have := encodeAll_get instrs (labelmap instrs) 0 bins h i instr hi
  simpa using this

lemma encodeAll_length :
    ∀ (instrs : List Instruction) (lm : List (String × Nat)) (j : Nat)
      (bins : List Nat), encodeAll lm j instrs = some bins →
      bins.length = instrs.length := by
  intro instrs
  induction instrs with
  | nil =>
    intro lm j bins h
    unfold encodeAll at h
    simp only [Option.some.injEq] at h
    subst h
    rfl
  | cons a rest ih =>
    intro lm j bins h
    unfold encodeAll at h
    cases ha : encodeInstr lm j a with
    | none => rw [ha] at h; simp at h
    | some b0 =>
      cases hrest : encodeAll lm (j + 1) rest with
      | none => rw [ha, hrest] at h; simp at h
      | some bs =>
        rw [ha, hrest] at h
        simp only [Option.some.injEq] at h
        subst h
        simp [ih lm (j + 1) bs hrest]

lemma instrs2bin_length (instrs : List Instruction) (bins : List Nat)
    (h : instrs2bin instrs = some bins) : bins.length = instrs.length :=
  encodeAll_length instrs (labelmap instrs) 0 bins h

/- The R-format word, rewritten from bit-ors to a sum of disjoint fields. -/
lemma rword_sum (op rs rt rd f : Nat) (hop : op < 64) (hrs : rs < 32) (hrt : rt < 32)
    (hrd : rd < 32) (hf : f < 64) :
    shl32 op 26 ||| (shl32 rs 21 ||| shl32 rt 16 ||| shl32 rd 11) ||| f
      = op * 2 ^ 26 + rs * 2 ^ 21 + rt * 2 ^ 16 + rd * 2 ^ 11 + f := by
  rw [shl32_eq_mul op 26 (by omega), shl32_eq_mul rs 21 (by omega),
    shl32_eq_mul rt 16 (by omega), shl32_eq_mul rd 11 (by omega),
    lor_eq_add_of (rs * 2 ^ 21) (rt * 2 ^ 16) 21 (by omega) (by omega),
    lor_eq_add_of (rs * 2 ^ 21 + rt * 2 ^ 16) (rd * 2 ^ 11) 16 (by omega) (by omega),
    lor_eq_add_of (op * 2 ^ 26) (rs * 2 ^ 21 + rt * 2 ^ 16 + rd * 2 ^ 11) 26
      (by omega) (by omega),
    lor_eq_add_of (op * 2 ^ 26 + (rs * 2 ^ 21 + rt * 2 ^ 16 + rd * 2 ^ 11)) f 11
      (by omega) (by omega)]
  ring

/- The I-format word, rewritten from bit-ors to a sum of disjoint fields. -/
lemma iword_sum (op rs rt m16 : Nat) (hop : op < 64) (hrs : rs < 32) (hrt : rt < 32)
    (hm : m16 < 2 ^ 16) :
    shl32 op 26 ||| (shl32 rs 21 ||| shl32 rt 16 ||| m16)
      = op * 2 ^ 26 + rs * 2 ^ 21 + rt * 2 ^ 16 + m16 := by
  rw [shl32_eq_mul op 26 (by omega), shl32_eq_mul rs 21 (by omega),
    shl32_eq_mul rt 16 (by omega),
    lor_eq_add_of (rs * 2 ^ 21) (rt * 2 ^ 16) 21 (by omega) (by omega),
    lor_eq_add_of (rs * 2 ^ 21 + rt * 2 ^ 16) m16 16 (by omega) (by omega),
    lor_eq_add_of (op * 2 ^ 26) (rs * 2 ^ 21 + rt * 2 ^ 16 + m16) 26
      (by omega) (by omega)]
  ring

/- The low 16 bits of an I-format word are exactly its immediate field,
   whatever the register field values are. -/
lemma iword_low16 (op a b y : Nat) (hy : y < 2 ^ 16) :
    (shl32 op 26 ||| (shl32 a 21 ||| shl32 b 16 ||| y)) % 2 ^ 16 = y := by
  rw [mod_two_pow_or, mod_two_pow_or, mod_two_pow_or,
    mod_shl32_eq_zero op 26 16 (by omega) (by omega),
    mod_shl32_eq_zero a 21 16 (by omega) (by omega),
    mod_shl32_eq_zero b 16 16 (by omega) (by omega),
    Nat.mod_eq_of_lt hy, Nat.zero_or, Nat.zero_or, Nat.zero_or]

/- The branch-offset computation, simplified to a single two's-complement
   truncation. -/
lemma mask16_usize (t i : Nat) :
    usizeWrapSub t i &&& ((1 <<< 16) - 1)
      = (((t : Int) - 1 - (i : Int)) % (2 ^ 16 : Int)).toNat := by
  rw [show ((1 : Nat) <<< 16) - 1 = 2 ^ 16 - 1 from by norm_num [Nat.shiftLeft_eq],
    and_mask_eq_mod, usizeWrapSub]
  norm_num
  omega

/- The immediate masking for an i32 immediate. -/
lemma mask16_i32 (v : Int) :
    i32AsU32 v &&& ((1 <<< 16) - 1) = (v % (2 ^ 16 : Int)).toNat := by
  rw [show ((1 : Nat) <<< 16) - 1 = 2 ^ 16 - 1 from by norm_num [Nat.shiftLeft_eq],
    and_mask_eq_mod, i32AsU32]
  norm_num
  omega

lemma emod16_lt (x : Int) : (x % (2 ^ 16 : Int)).toNat < 2 ^ 16 := by
  norm_num
  omega

lemma charToDigit_le (c : Char) (n : Nat) (h : charToDigit c = some n) : n ≤ 9 := by
  unfold charToDigit at h
  split at h
  · simp only [Option.some.injEq] at h
    omega
  · exact absurd h (by simp)

/-
  Reductions of `encodeInstr` for each accepted operand shape.
-/

lemma encodeInstr_R (lm : List (String × Nat)) (i : Nat) (lbl : Option String)
    (m : Mnemonic) (rd rs rt : Nat) (hm : mnemonictype m = InstructionType.R) :
    encodeInstr lm i ⟨lbl, m, [Operand.Reg rd, Operand.Reg rs, Operand.Reg rt]⟩
      = some (shl32 (mnemonic2op m) 26 |||
          (shl32 rs 21 ||| shl32 rt 16 ||| shl32 rd 11) ||| mnemonic2funct m) := by
  cases m <;> first
    | rfl
    | exact absurd hm (by decide)

lemma encodeInstr_I_im (lm : List (String × Nat)) (i : Nat) (lbl : Option String)
    (m : Mnemonic) (rt rs : Nat) (im : Int) (hm : mnemonictype m = InstructionType.I) :
    encodeInstr lm i ⟨lbl, m, [Operand.Reg rt, Operand.Reg rs, Operand.Im im]⟩
      = some (shl32 (mnemonic2op m) 26 |||
          (shl32 rs 21 ||| shl32 rt 16 ||| (i32AsU32 im &&& ((1 <<< 16) - 1)))) := by
  cases m <;> first
    | rfl
    | exact absurd hm (by decide)

lemma encodeInstr_I_mem (lm : List (String × Nat)) (i : Nat) (lbl : Option String)
    (m : Mnemonic) (rt rs : Nat) (im : Int) (hm : mnemonictype m = InstructionType.I) :
    encodeInstr lm i ⟨lbl, m, [Operand.Reg rt, Operand.Im im, Operand.Reg rs]⟩
      = some (shl32 (mnemonic2op m) 26 |||
          (shl32 rs 21 ||| shl32 rt 16 ||| (i32AsU32 im &&& ((1 <<< 16) - 1)))) := by
  cases m <;> first
    | rfl
    | exact absurd hm (by decide)

lemma encodeInstr_I_label (lm : List (String × Nat)) (i : Nat) (lbl : Option String)
    (m : Mnemonic) (a b : Nat) (l : String) (t : Nat)
    (hm : mnemonictype m = InstructionType.I) (ht : lookupLabel lm l = some t) :
    encodeInstr lm i ⟨lbl, m, [Operand.Reg a, Operand.Reg b, Operand.Label l]⟩
      = some (shl32 (mnemonic2op m) 26 |||
          (shl32 a 21 ||| shl32 b 16 ||| (usizeWrapSub t i &&& ((1 <<< 16) - 1)))) := by
  cases m <;> first
    | exact absurd hm (by decide)
    | (simp only [encodeInstr, mnemonictype]; rw [ht]; try rfl)

lemma encodeInstr_J_label (lm : List (String × Nat)) (i : Nat) (lbl : Option String)
    (l : String) (p : Nat) (ht : lookupLabel lm l = some p) :
    encodeInstr lm i ⟨lbl, Mnemonic.J, [Operand.Label l]⟩
      = some (shl32 2 26 ||| p % 2 ^ 32) := by
  simp only [encodeInstr, mnemonictype]
  rw [ht]
  rfl

/-
  Claim theorems.
-/

/-- C1: In a successfully assembled program, every R-format instruction
(AND, OR, SLT, ADD, SUB) whose three operands are all registers encodes to
the word `opcode(6)=0 | rs(5) | rt(5) | rd(5) | shamt(5)=0 | funct(6)`,
with the operand at position 0 in the `rd` field and the operands at
positions 1 and 2 in `rs` and `rt`; in particular `add $t0, $t1, $t2`
(registers 8, 9, 10) encodes to 0x012A4020. -/
theorem rformat_field_layout (instrs : List Instruction) (bins : List Nat) (i : Nat)
    (lbl : Option String) (m : Mnemonic) (rd rs rt : Nat)
    (henc : instrs2bin instrs = some bins)
    (hi : instrs[i]? = some ⟨lbl, m, [Operand.Reg rd, Operand.Reg rs, Operand.Reg rt]⟩)
    (hm : mnemonictype m = InstructionType.R)
    (hrd : rd < 32) (hrs : rs < 32) (hrt : rt < 32) :
    bins[i]? = some (0 * 2 ^ 26 + rs * 2 ^ 21 + rt * 2 ^ 16 + rd * 2 ^ 11
        + 0 * 2 ^ 6 + mnemonic2funct m) ∧
    encodeInstr [] 0 ⟨none, Mnemonic.ADD, [Operand.Reg 8, Operand.Reg 9, Operand.Reg 10]⟩
      = some 0x012A4020 := by
  constructor
  · obtain ⟨b, hb, he⟩ := instrs2bin_get instrs bins i _ henc hi
    rw [encodeInstr_R _ _ _ _ _ _ _ hm] at he
    have hop : mnemonic2op m = 0 := by
      cases m <;> first
        | rfl
        | exact absurd hm (by decide)
    have hfunct : mnemonic2funct m < 64 := by
      cases m <;> simp [mnemonic2funct]
    rw [hop, rword_sum 0 rs rt rd (mnemonic2funct m) (by omega) hrs hrt hrd hfunct] at he
    simp only [Option.some.injEq] at he
    rw [hb]
    simp only [Option.some.injEq]
    omega
  · decide

theorem rformat_field_layout_witness :
    ([0x012A4020] : List Nat)[0]? = some (0 * 2 ^ 26 + 9 * 2 ^ 21 + 10 * 2 ^ 16
        + 8 * 2 ^ 11 + 0 * 2 ^ 6 + mnemonic2funct Mnemonic.ADD) ∧
    encodeInstr [] 0 ⟨none, Mnemonic.ADD, [Operand.Reg 8, Operand.Reg 9, Operand.Reg 10]⟩
      = some 0x012A4020 :=
  rformat_field_layout
    [⟨none, Mnemonic.ADD, [Operand.Reg 8, Operand.Reg 9, Operand.Reg 10]⟩]
    [0x012A4020] 0 none Mnemonic.ADD 8 9 10 (by decide) (by decide) (by decide)
    (by decide) (by decide) (by decide)

/-- C2: For every I-format instruction at program index `i` whose third
operand is a label resolved to index `t` in the label table, the encoded
16-bit immediate field is `(t - 1 - i) mod 2^16` in truncated
two's-complement, for forward and backward references alike (the case
`t = i + 1` gives offset 0). -/
theorem branch_offset_arith (instrs : List Instruction) (bins : List Nat) (i t : Nat)
    (lbl : Option String) (m : Mnemonic) (a b : Nat) (l : String)
    (henc : instrs2bin instrs = some bins)
    (hi : instrs[i]? = some ⟨lbl, m, [Operand.Reg a, Operand.Reg b, Operand.Label l]⟩)
    (hm : mnemonictype m = InstructionType.I)
    (ht : lookupLabel (labelmap instrs) l = some t) :
    ∃ w, bins[i]? = some w ∧
      w % 2 ^ 16 = (((t : Int) - 1 - (i : Int)) % (2 ^ 16 : Int)).toNat := by
  obtain ⟨w, hw, he⟩ := instrs2bin_get instrs bins i _ henc hi
  refine ⟨w, hw, ?_⟩
  rw [encodeInstr_I_label _ _ _ _ _ _ _ _ hm ht, mask16_usize] at he
  simp only [Option.some.injEq] at he
  rw [← he]
  exact iword_low16 _ _ _ _ (emod16_lt _)

theorem branch_offset_arith_witness :
    (∃ w, ([0x10220001, 0x012A4020, 0x012A4020] : List Nat)[0]? = some w ∧
      w % 2 ^ 16 = (((2 : Int) - 1 - (0 : Int)) % (2 ^ 16 : Int)).toNat) ∧
    (∃ w, ([0x012A4020, 0x012A4020, 0x1022FFFD] : List Nat)[2]? = some w ∧
      w % 2 ^ 16 = (((0 : Int) - 1 - (2 : Int)) % (2 ^ 16 : Int)).toNat) ∧
    (∃ w, ([0x10220000, 0x012A4020] : List Nat)[0]? = some w ∧
      w % 2 ^ 16 = (((1 : Int) - 1 - (0 : Int)) % (2 ^ 16 : Int)).toNat) := by
  refine ⟨?_, ?_, ?_⟩
  · exact branch_offset_arith
      [⟨none, Mnemonic.BEQ, [Operand.Reg 1, Operand.Reg 2, Operand.Label "L"]⟩,
       ⟨none, Mnemonic.ADD, [Operand.Reg 8, Operand.Reg 9, Operand.Reg 10]⟩,
       ⟨some "L", Mnemonic.ADD, [Operand.Reg 8, Operand.Reg 9, Operand.Reg 10]⟩]
      [0x10220001, 0x012A4020, 0x012A4020] 0 2 none Mnemonic.BEQ 1 2 "L"
      (by decide) (by decide) (by decide) (by decide)
  · exact branch_offset_arith
      [⟨some "B", Mnemonic.ADD, [Operand.Reg 8, Operand.Reg 9, Operand.Reg 10]⟩,
       ⟨none, Mnemonic.ADD, [Operand.Reg 8, Operand.Reg 9, Operand.Reg 10]⟩,
       ⟨none, Mnemonic.BEQ, [Operand.Reg 1, Operand.Reg 2, Operand.Label "B"]⟩]
      [0x012A4020, 0x012A4020, 0x1022FFFD] 2 0 none Mnemonic.BEQ 1 2 "B"
      (by decide) (by decide) (by decide) (by decide)
  · exact branch_offset_arith
      [⟨none, Mnemonic.BEQ, [Operand.Reg 1, Operand.Reg 2, Operand.Label "N"]⟩,
       ⟨some "N", Mnemonic.ADD, [Operand.Reg 8, Operand.Reg 9, Operand.Reg 10]⟩]
      [0x10220000, 0x012A4020] 0 1 none Mnemonic.BEQ 1 2 "N"
      (by decide) (by decide) (by decide) (by decide)

/-- C3 counterexample: the claim predicts that for the branch shape
`(Reg, Reg, Label)` the operand at position 0 lands in the `rt` field
(bits 20-16).  Encoding `beq` with operands `(Reg 1, Reg 2, Label "L")`
(label at index 1, instruction at index 0) gives 0x10220000, whose bits
20-16 hold 2 — the operand at position 1 — and whose bits 25-21 hold 1;
the claimed assignment would demand bits 20-16 = 1. -/
theorem branch_reg_fields_cex :
    instrs2bin
        [⟨none, Mnemonic.BEQ, [Operand.Reg 1, Operand.Reg 2, Operand.Label "L"]⟩,
         ⟨some "L", Mnemonic.ADD, [Operand.Reg 8, Operand.Reg 9, Operand.Reg 10]⟩]
      = some [0x10220000, 0x012A4020] ∧
    0x10220000 / 2 ^ 16 % 2 ^ 5 = 2 ∧
    ¬ (0x10220000 / 2 ^ 16 % 2 ^ 5 = 1) ∧
    0x10220000 / 2 ^ 21 % 2 ^ 5 = 1 := by
  refine ⟨by decide, by norm_num, by norm_num, by norm_num⟩

/-- C3 (amended): for every I-format instruction whose operand triple in
source order is `(Reg, Reg, Label)`, the operand at position 0 is placed in
the `rs` field (bits 25-21) and the operand at position 1 in the `rt` field
(bits 20-16) of the encoded word
`opcode(6) | rs(5) | rt(5) | immediate(16)`. -/
theorem branch_reg_fields (instrs : List Instruction) (bins : List Nat) (i t : Nat)
    (lbl : Option String) (m : Mnemonic) (a b : Nat) (l : String)
    (henc : instrs2bin instrs = some bins)
    (hi : instrs[i]? = some ⟨lbl, m, [Operand.Reg a, Operand.Reg b, Operand.Label l]⟩)
    (hm : mnemonictype m = InstructionType.I)
    (ht : lookupLabel (labelmap instrs) l = some t)
    (ha : a < 32) (hb : b < 32) :
    bins[i]? = some (mnemonic2op m * 2 ^ 26 + a * 2 ^ 21 + b * 2 ^ 16
        + (((t : Int) - 1 - (i : Int)) % (2 ^ 16 : Int)).toNat) := by
  obtain ⟨w, hw, he⟩ := instrs2bin_get instrs bins i _ henc hi
  rw [encodeInstr_I_label _ _ _ _ _ _ _ _ hm ht, mask16_usize] at he
  have hop : mnemonic2op m < 64 := by
    cases m <;> simp [mnemonic2op]
  rw [iword_sum _ _ _ _ hop ha hb (emod16_lt _)] at he
  rw [hw, ← he]

theorem branch_reg_fields_witness :
    ([0x10220000, 0x012A4020] : List Nat)[0]?
      = some (mnemonic2op Mnemonic.BEQ * 2 ^ 26 + 1 * 2 ^ 21 + 2 * 2 ^ 16
          + (((1 : Int) - 1 - (0 : Int)) % (2 ^ 16 : Int)).toNat) :=
  branch_reg_fields
    [⟨none, Mnemonic.BEQ, [Operand.Reg 1, Operand.Reg 2, Operand.Label "L"]⟩,
     ⟨some "L", Mnemonic.ADD, [Operand.Reg 8, Operand.Reg 9, Operand.Reg 10]⟩]
    [0x10220000, 0x012A4020] 0 1 none Mnemonic.BEQ 1 2 "L"
    (by decide) (by decide) (by decide) (by decide) (by decide) (by decide)

/- Any I-format operand triple outside the three accepted source-order
   shapes is fatal for the encoder. -/
lemma encodeI_bad_shape (lm : List (String × Nat)) (i : Nat) (lbl : Option String)
    (m : Mnemonic) (ops : List Operand) (hm : mnemonictype m = InstructionType.I)
    (hs : acceptedIShape ops = false) :
    encodeInstr lm i ⟨lbl, m, ops⟩ = none := by
  cases m <;> first
    | exact absurd hm (by decide)
    | (simp only [encodeInstr, mnemonictype]
       (rcases ops with _ | ⟨o0, (_ | ⟨o1, (_ | ⟨o2, (_ | ⟨o3, rest⟩)⟩)⟩)⟩) <;>
         (try rcases o0 with r0 | i0 | l0) <;>
         (try rcases o1 with r1 | i1 | l1) <;>
         (try rcases o2 with r2 | i2 | l2) <;>
         (first
           | rfl
           | (exfalso; simp [acceptedIShape] at hs)))

/-- C4 counterexample: the operand triple whose source order is
`(Imm, Reg, Reg)` is rejected by the encoder, not accepted: a `lw` with
operands `(Im 4, Reg 8, Reg 9)` is fatal, while the actual memory form
`lw $t0, 4($t1)` normalizes to the source-order triple `(Reg 8, Im 4,
Reg 9)` — the immediate is second, not first. -/
theorem mem_form_cex :
    instrs2bin [⟨none, Mnemonic.LW, [Operand.Im 4, Operand.Reg 8, Operand.Reg 9]⟩]
      = none ∧
    str2instr "lw $t0, 4($t1)"
      = some ⟨none, Mnemonic.LW, [Operand.Reg 8, Operand.Im 4, Operand.Reg 9]⟩ := by
  constructor
  · decide
  · decide

/-- C4 (amended): the memory-addressing form's operand triple in source
order is `(Reg rt, Imm im, Reg rs)` — punctuation normalization of
`lw $rt, im($rs)` puts the immediate second — and the encoder accepts it,
producing `opcode(6) | rs(5) | rt(5) | immediate(16)`; any operand triple
not matching one of the three accepted shapes (`(Reg,Reg,Imm)`,
`(Reg,Imm,Reg)`, `(Reg,Reg,Label)`) is fatal, including the claimed
`(Imm, Reg, Reg)` order. -/
theorem mem_form_accepted (instrs : List Instruction) (bins : List Nat) (i : Nat)
    (lbl : Option String) (m : Mnemonic) (rt rs : Nat) (im : Int)
    (henc : instrs2bin instrs = some bins)
    (hi : instrs[i]? = some ⟨lbl, m, [Operand.Reg rt, Operand.Im im, Operand.Reg rs]⟩)
    (hm : mnemonictype m = InstructionType.I)
    (hrt : rt < 32) (hrs : rs < 32) :
    bins[i]? = some (mnemonic2op m * 2 ^ 26 + rs * 2 ^ 21 + rt * 2 ^ 16
        + (im % (2 ^ 16 : Int)).toNat) ∧
    (∀ (lm' : List (String × Nat)) (j : Nat) (lbl' : Option String)
        (ops : List Operand), acceptedIShape ops = false →
        encodeInstr lm' j ⟨lbl', m, ops⟩ = none) := by
  constructor
  · obtain ⟨w, hw, he⟩ := instrs2bin_get instrs bins i _ henc hi
    rw [encodeInstr_I_mem _ _ _ _ _ _ _ hm, mask16_i32] at he
    have hop : mnemonic2op m < 64 := by
      cases m <;> simp [mnemonic2op]
    rw [iword_sum _ _ _ _ hop hrs hrt (emod16_lt _)] at he
    rw [hw, ← he]
  · intro lm' j lbl' ops hshape
    exact encodeI_bad_shape lm' j lbl' m ops hm hshape

theorem mem_form_accepted_witness :
    ([0x8D280004] : List Nat)[0]?
      = some (mnemonic2op Mnemonic.LW * 2 ^ 26 + 9 * 2 ^ 21 + 8 * 2 ^ 16
          + ((4 : Int) % (2 ^ 16 : Int)).toNat) :=
  (mem_form_accepted
    [⟨none, Mnemonic.LW, [Operand.Reg 8, Operand.Im 4, Operand.Reg 9]⟩]
    [0x8D280004] 0 none Mnemonic.LW 8 9 4
    (by decide) (by decide) (by decide) (by decide) (by decide)).1

/-- C5 counterexample: the classifier does not keep register indices within
[0,31]: it accepts `$s8` and returns index 32 (and, e.g., `$k9` gives 35),
so the claimed invariant fails. -/
theorem reg_index_range_cex :
    str2regidx "$s8" = some 32 ∧ str2regidx "$k9" = some 35 ∧
    ¬ (∀ (s : String) (n : Nat), str2regidx s = some n → n ≤ 31) := by
  refine ⟨by decide, by decide, fun h => ?_⟩
  exact absurd (h "$s8" 32 (by decide)) (by omega)

lemma regSchemeIdx_le (c1 c2 : Char) (n : Nat) (h : regSchemeIdx c1 c2 = some n) :
    n ≤ 35 := by
  unfold regSchemeIdx at h
  rcases ed : charToDigit c2 with _ | d
  · rw [ed] at h
    exact Option.noConfusion h
  · rw [ed] at h
    have hd := charToDigit_le _ _ ed
    have hifs : (if c1 = 'v' then some (d + 2)
        else if c1 = 'a' then some (d + 4)
        else if c1 = 't' then some (d + 8)
        else if c1 = 's' then some (if d < 8 then d + 16 else d + 24)
        else if c1 = 'k' then some (d + 26)
        else none) = some n := h
    clear h
    by_cases e1 : c1 = 'v'
    · rw [if_pos e1] at hifs; injection hifs with h'; omega
    · rw [if_neg e1] at hifs
      by_cases e2 : c1 = 'a'
      · rw [if_pos e2] at hifs; injection hifs with h'; omega
      · rw [if_neg e2] at hifs
        by_cases e3 : c1 = 't'
        · rw [if_pos e3] at hifs; injection hifs with h'; omega
        · rw [if_neg e3] at hifs
          by_cases e4 : c1 = 's'
          · rw [if_pos e4] at hifs
            injection hifs with h'
            by_cases e5 : d < 8
            · rw [if_pos e5] at h'; omega
            · rw [if_neg e5] at h'; omega
          · rw [if_neg e4] at hifs
            by_cases e6 : c1 = 'k'
            · rw [if_pos e6] at hifs; injection hifs with h'; omega
            · rw [if_neg e6] at hifs; exact Option.noConfusion hifs

/-- C5 (amended): every `Operand.Reg` index produced by the classifier is
in [0,35]; the documented alias and prefix+digit forms stay in [0,31], but
the classifier also accepts digit combinations outside the documented
ranges — `$s8`→32, `$s9`→33, `$k2`..`$k9`→28..35 — whose indices exceed
31. -/
theorem reg_index_range (s : String) (n : Nat) (h : str2regidx s = some n) :
    n ≤ 35 := by
  unfold str2regidx at h
  by_cases a1 : s = "$0"
  · rw [if_pos a1] at h; injection h with h'; omega
  · rw [if_neg a1] at h
    by_cases a2 : s = "$at"
    · rw [if_pos a2] at h; injection h with h'; omega
    · rw [if_neg a2] at h
      by_cases a3 : s = "$gp"
      · rw [if_pos a3] at h; injection h with h'; omega
      · rw [if_neg a3] at h
        by_cases a4 : s = "$sp"
        · rw [if_pos a4] at h; injection h with h'; omega
        · rw [if_neg a4] at h
          by_cases a5 : s = "$fp"
          · rw [if_pos a5] at h; injection h with h'; omega
          · rw [if_neg a5] at h
            by_cases a6 : s = "$ra"
            · rw [if_pos a6] at h; injection h with h'; omega
            · rw [if_neg a6] at h
              rcases e1 : s.data[1]? with _ | c1
              · rw [e1] at h; exact Option.noConfusion h
              · rw [e1] at h
                rcases e2 : s.data[2]? with _ | c2
                · rw [e2] at h; exact Option.noConfusion h
                · rw [e2] at h
                  exact regSchemeIdx_le c1 c2 n h

theorem reg_index_range_witness :
    str2regidx "$t0" = some 8 ∧ 8 ≤ 35 :=
  ⟨by decide, reg_index_range "$t0" 8 (by decide)⟩

/-- C6: every name in the fixed alias table and every valid prefix+digit
combination classifies to exactly the documented register index; in
particular `$t3` → 11, `$s0` → 16, `$ra` → 31. -/
theorem reg_alias_table_correct :
    (specRegisterTable.all fun p => str2regidx p.1 == some p.2) = true ∧
    str2regidx "$t3" = some 11 ∧ str2regidx "$s0" = some 16 ∧
    str2regidx "$ra" = some 31 := by
  decide

/-- C7: for every accepted I-format instruction with an immediate operand —
the arithmetic shape `(Reg, Reg, Im)` and the memory-addressing shape
`(Reg, Im, Reg)` alike — the 16-bit immediate field is the value masked to
its low 16 bits; no range check rejects an out-of-range immediate, so
`addi $t0,$t0,70000` encodes the same low 16 bits as 70000 mod 65536. -/
theorem imm_truncation (instrs : List Instruction) (bins : List Nat) (i : Nat)
    (lbl : Option String) (m : Mnemonic) (a b : Nat) (v : Int)
    (henc : instrs2bin instrs = some bins)
    (hi : instrs[i]? = some ⟨lbl, m, [Operand.Reg a, Operand.Reg b, Operand.Im v]⟩ ∨
          instrs[i]? = some ⟨lbl, m, [Operand.Reg a, Operand.Im v, Operand.Reg b]⟩)
    (hm : mnemonictype m = InstructionType.I) :
    ∃ w, bins[i]? = some w ∧ w % 2 ^ 16 = (v % (2 ^ 16 : Int)).toNat := by
  rcases hi with hi | hi
  · obtain ⟨w, hw, he⟩ := instrs2bin_get instrs bins i _ henc hi
    refine ⟨w, hw, ?_⟩
    rw [encodeInstr_I_im _ _ _ _ _ _ _ hm, mask16_i32] at he
    simp only [Option.some.injEq] at he
    rw [← he]
    exact iword_low16 _ _ _ _ (emod16_lt _)
  · obtain ⟨w, hw, he⟩ := instrs2bin_get instrs bins i _ henc hi
    refine ⟨w, hw, ?_⟩
    rw [encodeInstr_I_mem _ _ _ _ _ _ _ hm, mask16_i32] at he
    simp only [Option.some.injEq] at he
    rw [← he]
    exact iword_low16 _ _ _ _ (emod16_lt _)

theorem imm_truncation_witness :
    (∃ w, ([0x21081170] : List Nat)[0]? = some w ∧
      w % 2 ^ 16 = ((70000 : Int) % (2 ^ 16 : Int)).toNat) ∧
    (∃ w, ([0x21081170] : List Nat)[0]? = some w ∧
      w % 2 ^ 16 = ((4464 : Int) % (2 ^ 16 : Int)).toNat) ∧
    (∃ w, ([0x8D281170] : List Nat)[0]? = some w ∧
      w % 2 ^ 16 = ((70000 : Int) % (2 ^ 16 : Int)).toNat) ∧
    ((70000 : Int) % (2 ^ 16 : Int)).toNat = 4464 := by
  refine ⟨?_, ?_, ?_, by decide⟩
  · exact imm_truncation
      [⟨none, Mnemonic.ADDI, [Operand.Reg 8, Operand.Reg 8, Operand.Im 70000]⟩]
      [0x21081170] 0 none Mnemonic.ADDI 8 8 70000 (by decide)
      (Or.inl (by decide)) (by decide)
  · exact imm_truncation
      [⟨none, Mnemonic.ADDI, [Operand.Reg 8, Operand.Reg 8, Operand.Im 4464]⟩]
      [0x21081170] 0 none Mnemonic.ADDI 8 8 4464 (by decide)
      (Or.inl (by decide)) (by decide)
  · exact imm_truncation
      [⟨none, Mnemonic.LW, [Operand.Reg 8, Operand.Im 70000, Operand.Reg 9]⟩]
      [0x8D281170] 0 none Mnemonic.LW 8 9 70000 (by decide)
      (Or.inr (by decide)) (by decide)

/-- C8: a J instruction whose single operand is a label at index `p` in the
label table encodes to opcode 2 in bits 31-26 OR'd with `p` as a raw 26-bit
address — the instruction index itself, not shifted and not a byte
address; a J instruction with any other operand count or kind, or whose
label is absent from the table, is fatal. -/
theorem j_raw_index_address (instrs : List Instruction) (bins : List Nat) (i p : Nat)
    (lbl : Option String) (l : String)
    (henc : instrs2bin instrs = some bins)
    (hi : instrs[i]? = some ⟨lbl, Mnemonic.J, [Operand.Label l]⟩)
    (ht : lookupLabel (labelmap instrs) l = some p)
    (hp : p < 2 ^ 26) :
    bins[i]? = some (2 * 2 ^ 26 + p) ∧
    (∀ (lm' : List (String × Nat)) (j : Nat) (lbl' : Option String) (l' : String),
        lookupLabel lm' l' = none →
        encodeInstr lm' j ⟨lbl', Mnemonic.J, [Operand.Label l']⟩ = none) ∧
    (∀ (lm' : List (String × Nat)) (j : Nat) (lbl' : Option String)
        (ops : List Operand), (∀ s, ops ≠ [Operand.Label s]) →
        encodeInstr lm' j ⟨lbl', Mnemonic.J, ops⟩ = none) := by
  refine ⟨?_, ?_, ?_⟩
  · obtain ⟨w, hw, he⟩ := instrs2bin_get instrs bins i _ henc hi
    rw [encodeInstr_J_label _ _ _ _ _ ht,
      Nat.mod_eq_of_lt (show p < 2 ^ 32 by omega),
      shl32_eq_mul 2 26 (by omega),
      lor_eq_add_of (2 * 2 ^ 26) p 26 (by omega) hp] at he
    rw [hw, ← he]
  · intro lm' j lbl' l' hnone
    simp only [encodeInstr, mnemonictype]
    rw [hnone]
  · intro lm' j lbl' ops hops
    rcases ops with _ | ⟨o0, (_ | ⟨o1, rest⟩)⟩
    · rfl
    · rcases o0 with r0 | i0 | l0
      · rfl
      · rfl
      · exact absurd rfl (hops l0)
    · rcases o0 with r0 | i0 | l0 <;> rfl

theorem j_raw_index_address_witness :
    ([0x08000001, 0x012A4020] : List Nat)[0]? = some (2 * 2 ^ 26 + 1) :=
  (j_raw_index_address
    [⟨none, Mnemonic.J, [Operand.Label "E"]⟩,
     ⟨some "E", Mnemonic.ADD, [Operand.Reg 8, Operand.Reg 9, Operand.Reg 10]⟩]
    [0x08000001, 0x012A4020] 0 1 none "E"
    (by decide) (by decide) (by decide) (by decide)).1

/-- C9: a successfully assembled program of `n ≤ 64` instructions prints
exactly 64 lines: the `n` encoded words in program order as 8-hex-digit
lowercase values, followed by `64 - n` lines of `00000000`. -/
theorem output_padded_to_64 (instrs : List Instruction) (bins : List Nat) (n : Nat)
    (henc : instrs2bin instrs = some bins) (hn : instrs.length = n) (h64 : n ≤ 64) :
    ∃ ls, outputLines bins = some ls ∧ ls.length = 64 ∧
      ls.take n = bins.map hex8 ∧
      ls.drop n = List.replicate (64 - n) "00000000" := by
  have hlen : bins.length = n := by rw [instrs2bin_length instrs bins henc, hn]
  have hz : hex8 0 = "00000000" := by decide
  have hm : (bins.map hex8).length = n := by rw [List.length_map, hlen]
  refine ⟨bins.map hex8 ++ List.replicate (64 - bins.length) (hex8 0), ?_, ?_, ?_, ?_⟩
  · rw [outputLines, if_pos (by omega)]
  · rw [List.length_append, List.length_map, List.length_replicate, hlen]
    omega
  · rw [← hm, List.take_left]
  · rw [← hm, List.drop_left, hlen, hz, hm]

theorem output_padded_to_64_witness :
    ∃ ls, outputLines [0x012A4020, 0x012A4022, 0x08000000] = some ls ∧
      ls.length = 64 ∧
      ls.take 3 = ([0x012A4020, 0x012A4022, 0x08000000] : List Nat).map hex8 ∧
      ls.drop 3 = List.replicate 61 "00000000" :=
  output_padded_to_64
    [⟨some "S", Mnemonic.ADD, [Operand.Reg 8, Operand.Reg 9, Operand.Reg 10]⟩,
     ⟨none, Mnemonic.SUB, [Operand.Reg 8, Operand.Reg 9, Operand.Reg 10]⟩,
     ⟨none, Mnemonic.J, [Operand.Label "S"]⟩]
    [0x012A4020, 0x012A4022, 0x08000000] 3 (by decide) (by decide) (by decide)

/-- C10: for register tokens other than the six named aliases, the
classifier inspects only the characters at positions 1 and 2 and ignores
everything after them: two non-alias tokens agreeing at those positions
classify identically; in particular `$t10` yields index 9, the same as
`$t1`. -/
theorem reg_classifier_positions (s t : String)
    (hs : isNamedAlias s = false) (hu : isNamedAlias t = false)
    (h1 : s.data[1]? = t.data[1]?) (h2 : s.data[2]? = t.data[2]?) :
    str2regidx s = str2regidx t ∧
    str2regidx "$t10" = some 9 ∧ str2regidx "$t1" = some 9 := by
  refine ⟨?_, by decide, by decide⟩
  simp only [isNamedAlias, Bool.or_eq_false_iff, decide_eq_false_iff_not] at hs hu
  obtain ⟨⟨⟨⟨⟨s0, s1⟩, s2⟩, s3⟩, s4⟩, s5⟩ := hs
  obtain ⟨⟨⟨⟨⟨u0, u1⟩, u2⟩, u3⟩, u4⟩, u5⟩ := hu
  unfold str2regidx
  rw [if_neg s0, if_neg s1, if_neg s2, if_neg s3, if_neg s4, if_neg s5,
    if_neg u0, if_neg u1, if_neg u2, if_neg u3, if_neg u4, if_neg u5, h1, h2]

theorem reg_classifier_positions_witness :
    (str2regidx "$t10" = str2regidx "$t1") ∧
    str2regidx "$t10" = some 9 ∧ str2regidx "$t1" = some 9 :=
  reg_classifier_positions "$t10" "$t1" (by decide) (by decide) (by decide) (by decide)

end MinMips
